import Mathlib

/-!
BenchmarkVisualizer: the two vector benchmarks of `benchmark.cc`, as a
shallow embedding of `src/benchmark.cc`.

* `std::vector<int>` is a list of integers (`Vec`); `push_back` appends at the
  end, `vec[i] = x` is `vecSet`, which reports an index outside `0..size-1`
  as the fault `outOfBounds` instead of writing.
* `for (int i = 0; i < state.range(0); ++i) BODY` is `forInt`.  The counter is
  a 32-bit signed `int`, the bound is the 64-bit `state.range(0)`; `++i` at
  `INT_MAX` is signed overflow (undefined behaviour) and is reported as the
  fault `signedOverflow`: the run has no defined result from there on, and
  nothing is derived about what a compiled program does afterwards.
* `for (auto _ : state) BODY` is `timedLoop`: the harness decides how many
  times the body runs; that number is the field `max_iterations` of `State`.
* `state.counters[name] = v` is `State.setCounter`; a counter holds a
  `double`, so the integer assigned is converted by `toDouble`.
* Memory is taken as unbounded: an allocation never fails, apart from
  `std::vector<int> vec(n)` with `n`, converted to the unsigned size type,
  above `max_size()`, which throws `length_error`.
-/

namespace BenchmarkVisualizer

/-! ## Data model -/

/-- Largest value of a 32-bit signed `int`. -/
def INT_MAX : Int := 2147483647

/-- Ways in which a run of a benchmark function fails to produce a result. -/
inductive Fault where
  /-- `++i` with `i = INT_MAX`. -/
  | signedOverflow
  /-- `vec[i]` with `i` outside `0 .. vec.size() - 1`. -/
  | outOfBounds
  /-- `std::vector<int> vec(n)` with `n` above `max_size()`. -/
  | lengthError
  deriving DecidableEq

/-- The contents of a `std::vector<int>`. -/
abbrev Vec := List Int

/-- `vec.push_back(x)`. -/
def push_back (vec : Vec) (x : Int) : Vec := vec ++ [x]

/-- `vec[i] = x`, for an `int` index `i`: the index is converted to the
unsigned size type, so a negative `i` is out of bounds like one that is too
large. -/
def vecSet (vec : Vec) (i : Int) (x : Int) : Except Fault Vec :=
  if 0 ≤ i ∧ i.toNat < vec.length then .ok (vec.set i.toNat x)
  else .error .outOfBounds

/-- `std::vector<int>::max_size()` on a 64-bit platform: `PTRDIFF_MAX`
divided by the size of an `int`, that is `2^61 - 1`. -/
def max_size : Int := 2305843009213693951

/-- `std::vector<int> vec(n)` for an `int64_t` argument `n`: the argument is
converted to the unsigned 64-bit size type; above `max_size()` the constructor
throws `length_error`, otherwise the vector holds that many value-initialised
(zero) elements. -/
def vectorOfSize (n : Int) : Except Fault Vec :=
  let m := n % 18446744073709551616
  if max_size < m then .error .lengthError else .ok (List.replicate m.toNat 0)

/-- The value of the `double` nearest to the integer `n` (ties to even): the
conversion applied when an `int64_t` is assigned to a counter.  Integers of
magnitude at most `2^53` are kept as they are. -/
def toDouble (n : Int) : Int :=
  if n.natAbs ≤ 2 ^ 53 then n
  else
    let e := Nat.log2 n.natAbs - 52
    let q := n.natAbs / 2 ^ e
    let r := n.natAbs % 2 ^ e
    let q1 := if 2 ^ e < 2 * r ∨ (2 * r = 2 ^ e ∧ q % 2 = 1) then q + 1 else q
    Int.sign n * ((q1 * 2 ^ e : Nat) : Int)

/-- The map `state.counters`, from counter names to values. -/
abbrev UserCounters := List (String × Int)

/-- `counters[name] = v`: overwrite the entry of `name`, or add one. -/
def UserCounters.assign : UserCounters → String → Int → UserCounters
  | [], name, v => [(name, v)]
  | (k, w) :: rest, name, v =>
    if k = name then (k, v) :: rest else (k, w) :: UserCounters.assign rest name v

/-- `counters.find(name)`. -/
def UserCounters.find : UserCounters → String → Option Int
  | [], _ => none
  | (k, w) :: rest, name => if k = name then some w else UserCounters.find rest name

/-- What a benchmark function sees of `benchmark::State`: the argument
`state.range(0)`, the number of iterations the harness runs the timed loop
for, and the user counters. -/
structure State where
  range0 : Int
  max_iterations : Nat
  counters : UserCounters

/-- `state.counters[name] = v` for an integer `v`. -/
def State.setCounter (state : State) (name : String) (v : Int) : State :=
  { state with counters := state.counters.assign name (toDouble v) }

/-- The state handed to a benchmark function for size argument `N` when the
harness runs `k` iterations: no counter is set yet. -/
def State.start (N : Int) (k : Nat) : State := ⟨N, k, []⟩

/-! ## Control structure -/

/-- The loop `for (int i = i0; i < N; ++i) body`, entered with counter value
`i` and loop state `s`.  The counter is compared with the 64-bit `N` after
promotion; `++i` with `i = INT_MAX` is undefined behaviour, at which the
embedding ends the run with the fault `signedOverflow`. -/
def forInt {σ : Type} (N : Int) (body : Int → σ → Except Fault σ)
    (i : Int) (s : σ) : Except Fault σ :=
  if i < N then
    match body i s with
    | .error e => .error e
    | .ok s1 =>
      if h : i < INT_MAX then forInt N body (i + 1) s1
      else .error .signedOverflow
  else .ok s
termination_by (INT_MAX - i).toNat
decreasing_by
  simp only [INT_MAX] at h ⊢
  omega

/-- The loop `for (auto _ : state) body`, run by the harness `k` times. -/
def timedLoop {σ : Type} : Nat → (σ → Except Fault σ) → σ → Except Fault σ
  | 0, _, s => .ok s
  | k + 1, body, s =>
    match body s with
    | .error e => .error e
    | .ok s1 => timedLoop k body s1

/-- The body of a `forInt` loop, extended to record the counter value of each
execution in a log. -/
def logged {σ : Type} (body : Int → σ → Except Fault σ) :
    Int → σ × List Int → Except Fault (σ × List Int) :=
  fun i p =>
    match body i p.1 with
    | .error e => .error e
    | .ok s1 => .ok (s1, p.2 ++ [i])

/-! ## The benchmark functions -/

/-- What is left when a benchmark function returns: its local vector as it
was after the timed loop, and the state with the counters. -/
structure Run where
  vec : Vec
  state : State

/-- Inner statement of `BM_VectorPush`: `vec.push_back(i)`. -/
def pushBody (i : Int) (vec : Vec) : Except Fault Vec := .ok (push_back vec i)

/-- Inner statement of `BM_VectorAccess`: `vec[i] = i`. -/
def accessBody (i : Int) (vec : Vec) : Except Fault Vec := vecSet vec i i

/-- Body of the timed loop of `BM_VectorPush`. -/
def pushIteration (N : Int) (vec : Vec) : Except Fault Vec :=
  forInt N pushBody 0 vec

/-- Body of the timed loop of `BM_VectorAccess`. -/
def accessIteration (N : Int) (vec : Vec) : Except Fault Vec :=
  forInt N accessBody 0 vec

/-- Body of the timed loop of `BM_VectorPush`, run on the vector paired with
a log that receives the counter value of every execution of the inner
statement. -/
def pushIterationLogged (N : Int) (p : Vec × List Int) : Except Fault (Vec × List Int) :=
  forInt N (logged pushBody) 0 p

/-- Body of the timed loop of `BM_VectorAccess`, run on the vector paired with
a log that receives the index of every write `vec[i] = i`. -/
def accessIterationLogged (N : Int) (p : Vec × List Int) : Except Fault (Vec × List Int) :=
  forInt N (logged accessBody) 0 p

/-- `static void BM_VectorPush(benchmark::State& state)`. -/
def BM_VectorPush (state : State) : Except Fault Run :=
  let vec : Vec := []
  match timedLoop state.max_iterations (pushIteration state.range0) vec with
  | .error e => .error e
  | .ok vec =>
    let state := state.setCounter "Size" state.range0
    let state := state.setCounter "benchmark_visualizer_group" 0
    .ok ⟨vec, state⟩

/-- `static void BM_VectorAccess(benchmark::State& state)`. -/
def BM_VectorAccess (state : State) : Except Fault Run :=
  match vectorOfSize state.range0 with
  | .error e => .error e
  | .ok vec =>
    match timedLoop state.max_iterations (accessIteration state.range0) vec with
    | .error e => .error e
    | .ok vec =>
      let state := state.setCounter "Size" state.range0
      let state := state.setCounter "benchmark_visualizer_group" 1
      .ok ⟨vec, state⟩

/-! ## Registration -/

/-- A registered benchmark: the function's name and its argument sweep. -/
structure Benchmark where
  name : String
  args : List Int
  deriving DecidableEq

/-- `BENCHMARK(f)`: register `f`, with no argument yet. -/
def BENCHMARK (name : String) : Benchmark := ⟨name, []⟩

/-- `->Arg(x)`: add `x` at the end of the sweep. -/
def Benchmark.Arg (b : Benchmark) (x : Int) : Benchmark :=
  { b with args := b.args ++ [x] }

/-- The registry after the two registration statements, in file order. -/
def registered : List Benchmark :=
  [ ((((BENCHMARK "BM_VectorPush").Arg 10).Arg 100).Arg 1000).Arg 10000,
    ((((BENCHMARK "BM_VectorAccess").Arg 10).Arg 100).Arg 1000).Arg 10000 ]

/-- The (benchmark, argument) pairs the driver runs. -/
def suite : List (String × Int) :=
  registered.flatMap fun b => b.args.map fun x => (b.name, x)

/-! ## Sequences used in the proofs -/

/-- The integers `i, i+1, ..., i+n-1`. -/
def countUp (i : Int) : Nat → List Int
  | 0 => []
  | n + 1 => i :: countUp (i + 1) n

/-- The contents `block` repeated `k` times. -/
def repeated (block : Vec) (k : Nat) : Vec := (List.replicate k block).flatten

/-! ## Auxiliary facts -/

theorem countUp_length (i : Int) (n : Nat) : (countUp i n).length = n := by
  induction n generalizing i with
  | zero => rfl
  | succ n ih => simp [countUp, ih]

theorem countUp_getElem? (i : Int) (n j : Nat) (h : j < n) :
    (countUp i n)[j]? = some (i + j) := by
  induction n generalizing i j with
  | zero => omega
  | succ n ih =>
    cases j with
    | zero => simp [countUp]
    | succ j =>
      simp only [countUp, List.getElem?_cons_succ]
      rw [ih (i + 1) j (by omega)]
      congr 1
      push_cast
      omega

theorem countUp_eq_map (i : Int) (n : Nat) :
    countUp i n = (List.range n).map fun (j : Nat) => i + (j : Int) := by
  apply List.ext_getElem?
  intro j
  by_cases h : j < n
  · rw [countUp_getElem? i n j h]
    simp [List.getElem?_map, List.getElem?_range h]
  · have h1 : (countUp i n).length ≤ j := by rw [countUp_length]; omega
    rw [List.getElem?_eq_none h1, List.getElem?_eq_none]
    simp only [List.length_map, List.length_range]; omega

theorem countUp_mem (i : Int) (n : Nat) (x : Int) (h : x ∈ countUp i n) :
    i ≤ x ∧ x < i + n := by
  rw [countUp_eq_map] at h
  simp only [List.mem_map, List.mem_range] at h
  obtain ⟨j, hj, rfl⟩ := h
  omega

theorem forInt_done {σ : Type} (N : Int) (body : Int → σ → Except Fault σ)
    (i : Int) (s : σ) (h : N ≤ i) : forInt N body i s = .ok s := by
  rw [forInt, if_neg (by omega)]

theorem forInt_step {σ : Type} (N : Int) (body : Int → σ → Except Fault σ)
    (i : Int) (s s1 : σ) (h : i < N) (hi : i < INT_MAX) (hb : body i s = .ok s1) :
    forInt N body i s = forInt N body (i + 1) s1 := by
  rw [forInt, if_pos h, hb]
  simp only [hi, dite_true]

theorem forInt_fault {σ : Type} (N : Int) (body : Int → σ → Except Fault σ)
    (i : Int) (s : σ) (e : Fault) (h : i < N) (hb : body i s = .error e) :
    forInt N body i s = .error e := by
  rw [forInt, if_pos h, hb]

theorem forInt_overflow {σ : Type} (N : Int) (body : Int → σ → Except Fault σ)
    (i : Int) (s s1 : σ) (h : i < N) (hi : ¬ i < INT_MAX) (hb : body i s = .ok s1) :
    forInt N body i s = .error .signedOverflow := by
  rw [forInt, if_pos h, hb]
  simp only [hi, dite_false]

/-! ### The inner loops -/

theorem forInt_pushBody (N : Int) (hN : N ≤ INT_MAX) (m : Nat) :
    ∀ (i : Int) (v : Vec), (N - i).toNat = m →
      forInt N pushBody i v = .ok (v ++ countUp i m) := by
  induction m with
  | zero =>
    intro i v hm
    rw [forInt_done N pushBody i v (by omega)]
    simp [countUp]
  | succ m ih =>
    intro i v hm
    have hlt : i < N := by omega
    rw [forInt_step N pushBody i v (push_back v i) hlt (by omega) rfl,
      ih (i + 1) (push_back v i) (by omega)]
    simp [push_back, countUp]

theorem take_succ_set (v : Vec) (n : Nat) (x : Int) (h : n < v.length) :
    (v.set n x).take (n + 1) = v.take n ++ [x] := by
  induction v generalizing n with
  | nil => simp at h
  | cons a v ih =>
    cases n with
    | zero => simp
    | succ n =>
      simp only [List.length_cons] at h
      simp [ih n (by omega)]

theorem forInt_accessBody (N : Int) (hN : N ≤ INT_MAX) (m : Nat) :
    ∀ (i : Int) (v : Vec), 0 ≤ i → i ≤ N → v.length = N.toNat → (N - i).toNat = m →
      forInt N accessBody i v = .ok (v.take i.toNat ++ countUp i m) := by
  induction m with
  | zero =>
    intro i v h0 hiN hlen hm
    rw [forInt_done N accessBody i v (by omega)]
    have : i.toNat = v.length := by omega
    simp [countUp, this]
  | succ m ih =>
    intro i v h0 hiN hlen hm
    have hlt : i < N := by omega
    have hin : i.toNat < v.length := by omega
    have hb : accessBody i v = .ok (v.set i.toNat i) := by
      simp only [accessBody, vecSet]
      rw [if_pos ⟨h0, hin⟩]
    rw [forInt_step N accessBody i v _ hlt (by omega) hb,
      ih (i + 1) (v.set i.toNat i) (by omega) (by omega) (by simpa using hlen) (by omega)]
    have h1 : (i + 1).toNat = i.toNat + 1 := by omega
    rw [h1, take_succ_set v i.toNat i hin]
    simp [countUp]

/-- Beyond `INT_MAX` the loop has no result, whatever the body does. -/
theorem forInt_not_ok {σ : Type} (N : Int) (body : Int → σ → Except Fault σ)
    (hN : INT_MAX < N) (d : Nat) :
    ∀ (i : Int) (s s1 : σ), i ≤ INT_MAX → (INT_MAX - i).toNat = d →
      forInt N body i s ≠ .ok s1 := by
  induction d with
  | zero =>
    intro i s s1 hi hd
    cases hb : body i s with
    | error e => rw [forInt_fault N body i s e (by omega) hb]; simp
    | ok s2 => rw [forInt_overflow N body i s s2 (by omega) (by omega) hb]; simp
  | succ d ih =>
    intro i s s1 hi hd
    cases hb : body i s with
    | error e => rw [forInt_fault N body i s e (by omega) hb]; simp
    | ok s2 =>
      rw [forInt_step N body i s s2 (by omega) (by omega) hb]
      exact ih (i + 1) s2 s1 (by omega) (by omega)

/-- A loop of `BM_VectorAccess` over a vector of `N` elements writes in
bounds only: it ends in a vector of the same length or in signed overflow. -/
theorem forInt_accessBody_cases (N : Int) (d : Nat) :
    ∀ (i : Int) (v : Vec), 0 ≤ i → v.length = N.toNat → (INT_MAX - i).toNat = d →
      forInt N accessBody i v = .error .signedOverflow ∨
        ∃ w, forInt N accessBody i v = .ok w ∧ w.length = v.length := by
  induction d with
  | zero =>
    intro i v h0 hlen hd
    by_cases hlt : i < N
    · have hb : accessBody i v = .ok (v.set i.toNat i) := by
        simp only [accessBody, vecSet]
        rw [if_pos ⟨h0, by omega⟩]
      by_cases hi : i < INT_MAX
      · omega
      · exact Or.inl (forInt_overflow N accessBody i v _ hlt hi hb)
    · exact Or.inr ⟨v, forInt_done N accessBody i v (by omega), rfl⟩
  | succ d ih =>
    intro i v h0 hlen hd
    by_cases hlt : i < N
    · have hb : accessBody i v = .ok (v.set i.toNat i) := by
        simp only [accessBody, vecSet]
        rw [if_pos ⟨h0, by omega⟩]
      rw [forInt_step N accessBody i v _ hlt (by omega) hb]
      have := ih (i + 1) (v.set i.toNat i) (by omega) (by simpa using hlen) (by omega)
      simpa using this
    · exact Or.inr ⟨v, forInt_done N accessBody i v (by omega), rfl⟩

/-- A loop that returns has run its body once for each of `i, ..., N-1`. -/
theorem forInt_logged {σ : Type} (N : Int) (body : Int → σ → Except Fault σ) (d : Nat) :
    ∀ (i : Int) (s s1 : σ) (tr : List Int), (INT_MAX - i).toNat = d →
      forInt N body i s = .ok s1 →
      forInt N (logged body) i (s, tr) = .ok (s1, tr ++ countUp i (N - i).toNat) := by
  induction d with
  | zero =>
    intro i s s1 tr hd h
    by_cases hlt : i < N
    · cases hb : body i s with
      | error e => rw [forInt_fault N body i s e hlt hb] at h; simp at h
      | ok s2 =>
        by_cases hi : i < INT_MAX
        · omega
        · rw [forInt_overflow N body i s s2 hlt hi hb] at h; simp at h
    · rw [forInt_done N body i s (by omega)] at h
      rw [forInt_done N (logged body) i (s, tr) (by omega)]
      have h0 : (N - i).toNat = 0 := by omega
      simp only [Except.ok.injEq] at h
      simp [h0, countUp, h]
  | succ d ih =>
    intro i s s1 tr hd h
    by_cases hlt : i < N
    · cases hb : body i s with
      | error e => rw [forInt_fault N body i s e hlt hb] at h; simp at h
      | ok s2 =>
        rw [forInt_step N body i s s2 hlt (by omega) hb] at h
        have hl : logged body i (s, tr) = .ok (s2, tr ++ [i]) := by
          simp only [logged, hb]
        rw [forInt_step N (logged body) i (s, tr) _ hlt (by omega) hl,
          ih (i + 1) s2 s1 (tr ++ [i]) (by omega) h]
        have h1 : (N - i).toNat = (N - (i + 1)).toNat + 1 := by omega
        rw [h1]
        simp [countUp]
    · rw [forInt_done N body i s (by omega)] at h
      rw [forInt_done N (logged body) i (s, tr) (by omega)]
      have h0 : (N - i).toNat = 0 := by omega
      simp only [Except.ok.injEq] at h
      simp [h0, countUp, h]

theorem forInt_pushBody_overflow (N : Int) (hN : INT_MAX < N) (d : Nat) :
    ∀ (i : Int) (v : Vec), i ≤ INT_MAX → (INT_MAX - i).toNat = d →
      forInt N pushBody i v = .error .signedOverflow := by
  induction d with
  | zero =>
    intro i v hi hd
    exact forInt_overflow N pushBody i v _ (by omega) (by omega) rfl
  | succ d ih =>
    intro i v hi hd
    rw [forInt_step N pushBody i v _ (by omega) (by omega) rfl]
    exact ih (i + 1) _ (by omega) (by omega)

theorem forInt_accessBody_overflow (N : Int) (hN : INT_MAX < N) (v : Vec)
    (hlen : v.length = N.toNat) :
    forInt N accessBody 0 v = .error .signedOverflow := by
  have h0 : (0 : Int) ≤ INT_MAX := by simp [INT_MAX]
  rcases forInt_accessBody_cases N _ 0 v (le_refl 0) hlen rfl with h | ⟨w, h, _⟩
  · exact h
  · exact absurd h (forInt_not_ok N accessBody hN _ 0 v w h0 rfl)

/-! ### The timed loops -/

theorem repeated_succ (block : Vec) (k : Nat) :
    repeated block (k + 1) = block ++ repeated block k := by
  simp [repeated, List.replicate_succ]

theorem repeated_length (block : Vec) (k : Nat) :
    (repeated block k).length = k * block.length := by
  induction k with
  | zero => simp [repeated]
  | succ k ih => rw [repeated_succ, List.length_append, ih]; ring

theorem repeated_getElem? (block : Vec) (k j : Nat) (h : j < k * block.length) :
    (repeated block k)[j]? = block[j % block.length]? := by
  induction k generalizing j with
  | zero => simp at h
  | succ k ih =>
    rw [repeated_succ]
    by_cases hj : j < block.length
    · rw [List.getElem?_append_left hj, Nat.mod_eq_of_lt hj]
    · have hle : block.length ≤ j := by omega
      have hk : j - block.length < k * block.length := by
        have : (k + 1) * block.length = k * block.length + block.length := by ring
        omega
      rw [List.getElem?_append_right hle, ih (j - block.length) hk]
      congr 1
      conv_rhs => rw [← Nat.sub_add_cancel hle]
      rw [Nat.add_mod_right]

theorem timedLoop_push (N : Int) (hN : N ≤ INT_MAX) (k : Nat) :
    ∀ v : Vec, timedLoop k (pushIteration N) v =
      .ok (v ++ repeated (countUp 0 N.toNat) k) := by
  induction k with
  | zero => intro v; simp [timedLoop, repeated]
  | succ k ih =>
    intro v
    have h1 : pushIteration N v = .ok (v ++ countUp 0 N.toNat) :=
      forInt_pushBody N hN N.toNat 0 v (by omega)
    simp only [timedLoop, h1]
    rw [ih, repeated_succ, List.append_assoc]

theorem timedLoop_push_overflow (N : Int) (hN : INT_MAX < N) (k : Nat) (v : Vec) :
    timedLoop (k + 1) (pushIteration N) v = .error .signedOverflow := by
  have h0 : (0 : Int) ≤ INT_MAX := by simp [INT_MAX]
  have h1 : pushIteration N v = .error .signedOverflow :=
    forInt_pushBody_overflow N hN _ 0 v h0 rfl
  simp only [timedLoop, h1]

theorem accessIteration_eq (N : Int) (h0 : 0 ≤ N) (hN : N ≤ INT_MAX) (v : Vec)
    (hlen : v.length = N.toNat) :
    accessIteration N v = .ok (countUp 0 N.toNat) := by
  have := forInt_accessBody N hN N.toNat 0 v (le_refl 0) h0 hlen (by omega)
  simpa [accessIteration] using this

theorem timedLoop_access (N : Int) (h0 : 0 ≤ N) (hN : N ≤ INT_MAX) (k : Nat) :
    ∀ v : Vec, v.length = N.toNat →
      timedLoop (k + 1) (accessIteration N) v = .ok (countUp 0 N.toNat) := by
  induction k with
  | zero =>
    intro v hlen
    simp only [timedLoop, accessIteration_eq N h0 hN v hlen]
  | succ k ih =>
    intro v hlen
    rw [timedLoop]
    simp only [accessIteration_eq N h0 hN v hlen]
    exact ih _ (countUp_length 0 N.toNat)

theorem timedLoop_access_overflow (N : Int) (hN : INT_MAX < N) (k : Nat) (v : Vec)
    (hlen : v.length = N.toNat) :
    timedLoop (k + 1) (accessIteration N) v = .error .signedOverflow := by
  have h1 : accessIteration N v = .error .signedOverflow :=
    forInt_accessBody_overflow N hN v hlen
  simp only [timedLoop, h1]

/-! ### The logged loops -/

/-- Dropping the log of a logged loop gives the loop itself, fault or not. -/
theorem forInt_logged_fst {σ : Type} (N : Int) (body : Int → σ → Except Fault σ)
    (d : Nat) :
    ∀ (i : Int) (s : σ) (tr : List Int), (INT_MAX - i).toNat = d →
      Except.map Prod.fst (forInt N (logged body) i (s, tr)) = forInt N body i s := by
  induction d with
  | zero =>
    intro i s tr hd
    by_cases hlt : i < N
    · cases hb : body i s with
      | error e =>
        have hl : logged body i (s, tr) = .error e := by simp only [logged, hb]
        rw [forInt_fault N body i s e hlt hb, forInt_fault N (logged body) i (s, tr) e hlt hl]
        rfl
      | ok s2 =>
        have hl : logged body i (s, tr) = .ok (s2, tr ++ [i]) := by simp only [logged, hb]
        rw [forInt_overflow N body i s s2 hlt (by omega) hb,
          forInt_overflow N (logged body) i (s, tr) _ hlt (by omega) hl]
        rfl
    · rw [forInt_done N body i s (by omega), forInt_done N (logged body) i (s, tr) (by omega)]
      rfl
  | succ d ih =>
    intro i s tr hd
    by_cases hlt : i < N
    · cases hb : body i s with
      | error e =>
        have hl : logged body i (s, tr) = .error e := by simp only [logged, hb]
        rw [forInt_fault N body i s e hlt hb, forInt_fault N (logged body) i (s, tr) e hlt hl]
        rfl
      | ok s2 =>
        have hl : logged body i (s, tr) = .ok (s2, tr ++ [i]) := by simp only [logged, hb]
        rw [forInt_step N body i s s2 hlt (by omega) hb,
          forInt_step N (logged body) i (s, tr) _ hlt (by omega) hl]
        exact ih (i + 1) s2 (tr ++ [i]) (by omega)
    · rw [forInt_done N body i s (by omega), forInt_done N (logged body) i (s, tr) (by omega)]
      rfl

theorem pushIterationLogged_eq (N : Int) (hN : N ≤ INT_MAX) (v : Vec) (tr : List Int) :
    pushIterationLogged N (v, tr) =
      .ok (v ++ countUp 0 N.toNat, tr ++ countUp 0 N.toNat) := by
  have hsub : (N - 0).toNat = N.toNat := by simp
  have h := forInt_logged N pushBody _ 0 v _ tr rfl (forInt_pushBody N hN N.toNat 0 v hsub)
  rw [hsub] at h
  exact h

theorem accessIterationLogged_eq (N : Int) (h0 : 0 ≤ N) (hN : N ≤ INT_MAX) (v : Vec)
    (tr : List Int) (hlen : v.length = N.toNat) :
    accessIterationLogged N (v, tr) = .ok (countUp 0 N.toNat, tr ++ countUp 0 N.toNat) := by
  have hsub : (N - 0).toNat = N.toNat := by simp
  have h := forInt_logged N accessBody _ 0 v _ tr rfl (accessIteration_eq N h0 hN v hlen)
  rw [hsub] at h
  exact h

theorem timedLoop_accessLogged (N : Int) (h0 : 0 ≤ N) (hN : N ≤ INT_MAX) (k : Nat) :
    ∀ (v : Vec) (tr : List Int), v.length = N.toNat →
      ∃ w, timedLoop k (accessIteration N) v = .ok w ∧ w.length = N.toNat ∧
        timedLoop k (accessIterationLogged N) (v, tr) =
          .ok (w, tr ++ repeated (countUp 0 N.toNat) k) := by
  induction k with
  | zero =>
    intro v tr hlen
    exact ⟨v, rfl, hlen, by simp [timedLoop, repeated]⟩
  | succ k ih =>
    intro v tr hlen
    obtain ⟨w, hw, hwl, hlog⟩ :=
      ih (countUp 0 N.toNat) (tr ++ countUp 0 N.toNat) (countUp_length _ _)
    refine ⟨w, ?_, hwl, ?_⟩
    · simp only [timedLoop, accessIteration_eq N h0 hN v hlen]
      exact hw
    · simp only [timedLoop, accessIterationLogged_eq N h0 hN v tr hlen]
      rw [hlog, repeated_succ, List.append_assoc]

theorem mem_repeated (block : Vec) (k : Nat) (x : Int) (h : x ∈ repeated block k) :
    x ∈ block := by
  induction k with
  | zero => simp [repeated] at h
  | succ k ih =>
    rw [repeated_succ, List.mem_append] at h
    rcases h with h | h
    · exact h
    · exact ih h

/-! ### Counters -/

theorem find_assign_same (c : UserCounters) (name : String) (v : Int) :
    (c.assign name v).find name = some v := by
  induction c with
  | nil => simp [UserCounters.assign, UserCounters.find]
  | cons p rest ih =>
    obtain ⟨k, w⟩ := p
    by_cases h : k = name
    · simp [UserCounters.assign, UserCounters.find, h]
    · simp [UserCounters.assign, UserCounters.find, h, ih]

theorem find_assign_other (c : UserCounters) (name other : String) (v : Int)
    (hne : name ≠ other) : (c.assign name v).find other = c.find other := by
  induction c with
  | nil => simp [UserCounters.assign, UserCounters.find, hne]
  | cons p rest ih =>
    obtain ⟨k, w⟩ := p
    by_cases h : k = name
    · subst h
      simp [UserCounters.assign, UserCounters.find, hne]
    · by_cases h2 : k = other
      · subst h2
        simp [UserCounters.assign, UserCounters.find, h]
      · simp [UserCounters.assign, UserCounters.find, h, h2, ih]

theorem toDouble_exact (n : Int) (hlo : -9007199254740992 ≤ n) (h : n ≤ INT_MAX) :
    toDouble n = n := by
  have : n.natAbs ≤ 2 ^ 53 := by
    simp only [INT_MAX] at h
    omega
  simp only [toDouble, if_pos this]

theorem toDouble_sample : toDouble (-9007199254740993) = -9007199254740992 := by
  have hlog : Nat.log2 9007199254740993 = 53 := by
    rw [Nat.log2_eq_log_two, Nat.log_eq_iff] <;> norm_num
  have habs : (-9007199254740993 : Int).natAbs = 9007199254740993 := rfl
  have hsign : Int.sign (-9007199254740993) = -1 := rfl
  simp only [toDouble, habs, hlog, hsign]
  norm_num

/-! ### The benchmark functions -/

theorem BM_VectorPush_eq (N : Int) (hN : N ≤ INT_MAX) (k : Nat) :
    BM_VectorPush (State.start N k) =
      .ok ⟨repeated (countUp 0 N.toNat) k,
        ((State.start N k).setCounter "Size" N).setCounter "benchmark_visualizer_group" 0⟩ := by
  have h := timedLoop_push N hN k []
  simp only [List.nil_append] at h
  simp only [BM_VectorPush, State.start, h]

theorem BM_VectorPush_overflow (N : Int) (hN : INT_MAX < N) (k : Nat) :
    BM_VectorPush (State.start N (k + 1)) = .error .signedOverflow := by
  simp only [BM_VectorPush, State.start, timedLoop_push_overflow N hN k []]

theorem vectorOfSize_eq (N : Int) (h0 : 0 ≤ N) (hmax : N ≤ max_size) :
    vectorOfSize N = .ok (List.replicate N.toNat 0) := by
  have hm : N % 18446744073709551616 = N := by
    simp only [max_size] at hmax
    omega
  simp only [vectorOfSize, hm, if_neg (not_lt.mpr hmax)]

theorem INT_MAX_le_max_size (N : Int) (hN : N ≤ INT_MAX) : N ≤ max_size := by
  simp only [INT_MAX] at hN
  simp only [max_size]
  omega

theorem BM_VectorAccess_eq (N : Int) (h0 : 0 ≤ N) (hN : N ≤ INT_MAX) (k : Nat) :
    BM_VectorAccess (State.start N (k + 1)) =
      .ok ⟨countUp 0 N.toNat,
        ((State.start N (k + 1)).setCounter "Size" N).setCounter
          "benchmark_visualizer_group" 1⟩ := by
  have h := timedLoop_access N h0 hN k (List.replicate N.toNat 0) (by simp)
  simp only [BM_VectorAccess, State.start,
    vectorOfSize_eq N h0 (INT_MAX_le_max_size N hN), h]

theorem BM_VectorAccess_zero (N : Int) (h0 : 0 ≤ N) (hmax : N ≤ max_size) :
    BM_VectorAccess (State.start N 0) =
      .ok ⟨List.replicate N.toNat 0,
        ((State.start N 0).setCounter "Size" N).setCounter
          "benchmark_visualizer_group" 1⟩ := by
  simp only [BM_VectorAccess, State.start, vectorOfSize_eq N h0 hmax, timedLoop]

theorem BM_VectorAccess_overflow (N : Int) (hN : INT_MAX < N) (hmax : N ≤ max_size)
    (k : Nat) :
    BM_VectorAccess (State.start N (k + 1)) = .error .signedOverflow := by
  have h0 : 0 ≤ N := by
    simp only [INT_MAX] at hN
    omega
  have h := timedLoop_access_overflow N hN k (List.replicate N.toNat 0) (by simp)
  simp only [BM_VectorAccess, State.start, vectorOfSize_eq N h0 hmax, h]

theorem counters_after (N : Int) (h0 : 0 ≤ N) (hN : N ≤ INT_MAX) (k : Nat) (g : Int)
    (hg : toDouble g = g) :
    (((State.start N k).setCounter "Size" N).setCounter
      "benchmark_visualizer_group" g).counters =
      [("Size", N), ("benchmark_visualizer_group", g)] := by
  simp [State.setCounter, State.start, UserCounters.assign,
    toDouble_exact N (by omega) hN, hg]

/-! ## The claims -/

/-- C1, counterexample: for size 10 and two harness iterations the array of
`BM_VectorPush` after the timed loop holds twenty elements, `0..9` twice, not
ten. -/
theorem BM_VectorPush_ten_two_iterations :
    BM_VectorPush (State.start 10 2) =
      .ok ⟨[0, 1, 2, 3, 4, 5, 6, 7, 8, 9, 0, 1, 2, 3, 4, 5, 6, 7, 8, 9],
        ⟨10, 2, [("Size", 10), ("benchmark_visualizer_group", 0)]⟩⟩ := by
  rw [BM_VectorPush_eq 10 (by decide) 2]
  rfl

/-- C1, amended: for every registered size `N` and every number `k ≥ 1` of
harness iterations, `BM_VectorPush` returns, its array after the timed loop
has exactly `k * N` elements, the element at index `i` is `i` for every
`i < N`, and the array has exactly `N` elements when `k = 1`. -/
theorem BM_VectorPush_registered_sizes (N : Int) (k : Nat)
    (hN : N ∈ [10, 100, 1000, 10000]) (hk : 1 ≤ k) :
    ∃ r, BM_VectorPush (State.start N k) = .ok r ∧
      r.vec.length = k * N.toNat ∧
      (∀ i : Nat, i < N.toNat → r.vec[i]? = some (i : Int)) ∧
      (k = 1 → r.vec.length = N.toNat) := by
  have hmax : N ≤ INT_MAX := by
    simp only [List.mem_cons, List.mem_singleton, List.not_mem_nil, or_false] at hN
    rcases hN with h | h | h | h <;> subst h <;> decide
  refine ⟨_, BM_VectorPush_eq N hmax k, ?_, ?_, ?_⟩
  · simp only [repeated_length, countUp_length]
  · intro i hi
    obtain ⟨k, rfl⟩ : ∃ m, k = m + 1 := ⟨k - 1, by omega⟩
    simp only [repeated_succ]
    rw [List.getElem?_append_left (by rw [countUp_length]; exact hi),
      countUp_getElem? 0 N.toNat i hi]
    simp
  · intro h
    subst h
    simp only [repeated_length, countUp_length, Nat.one_mul]

/-- C1, witness: the amended statement at size 100, three iterations. -/
theorem BM_VectorPush_registered_sizes_witness :
    (100 : Int) ∈ [10, 100, 1000, 10000] ∧ 1 ≤ 3 ∧
      ∃ r, BM_VectorPush (State.start 100 3) = .ok r ∧
        r.vec.length = 3 * (100 : Int).toNat ∧
        (∀ i : Nat, i < (100 : Int).toNat → r.vec[i]? = some (i : Int)) ∧
        (3 = 1 → r.vec.length = (100 : Int).toNat) :=
  ⟨by decide, by decide, BM_VectorPush_registered_sizes 100 3 (by decide) (by decide)⟩

/-- C2, counterexample: for size `2^31` the `int` counter of `BM_VectorAccess`
overflows after the write at index `2^31 - 1`, so the run yields no array. -/
theorem BM_VectorAccess_two_pow_31 :
    BM_VectorAccess (State.start 2147483648 1) = .error .signedOverflow :=
  BM_VectorAccess_overflow 2147483648 (by decide) (by decide) 0

/-- C2, amended: for every size `N` with `0 ≤ N ≤ 2^31 - 1` and every number
`k ≥ 1` of harness iterations, `BM_VectorAccess` returns, and its array after
the timed loop has exactly `N` elements, the element at index `i` being `i`. -/
theorem BM_VectorAccess_identity (N : Int) (k : Nat)
    (h0 : 0 ≤ N) (hN : N ≤ INT_MAX) (hk : 1 ≤ k) :
    ∃ r, BM_VectorAccess (State.start N k) = .ok r ∧
      r.vec.length = N.toNat ∧
      ∀ i : Nat, i < N.toNat → r.vec[i]? = some (i : Int) := by
  obtain ⟨k, rfl⟩ : ∃ m, k = m + 1 := ⟨k - 1, by omega⟩
  refine ⟨_, BM_VectorAccess_eq N h0 hN k, countUp_length _ _, ?_⟩
  intro i hi
  simp only [countUp_getElem? 0 N.toNat i hi, Int.zero_add]

/-- C2, witness: the amended statement at size 1000, two iterations. -/
theorem BM_VectorAccess_identity_witness :
    (0 : Int) ≤ 1000 ∧ (1000 : Int) ≤ INT_MAX ∧ 1 ≤ 2 ∧
      ∃ r, BM_VectorAccess (State.start 1000 2) = .ok r ∧
        r.vec.length = (1000 : Int).toNat ∧
        ∀ i : Nat, i < (1000 : Int).toNat → r.vec[i]? = some (i : Int) :=
  ⟨by decide, by decide, by decide,
    BM_VectorAccess_identity 1000 2 (by decide) (by decide) (by decide)⟩

/-- C3, counterexample: `BM_VectorPush` with size `2^31` ends in signed
overflow and `BM_VectorAccess` with size `-1` in a length error, so neither
run has a counter map; and `BM_VectorPush` with size `-(2^53 + 1)` returns a
map whose `Size` is `-2^53`, the nearest `double`, not the argument. -/
theorem Size_counter_differs :
    BM_VectorPush (State.start 2147483648 1) = .error .signedOverflow ∧
      BM_VectorAccess (State.start (-1) 1) = .error .lengthError ∧
      BM_VectorPush (State.start (-9007199254740993) 1) =
        .ok ⟨[], ⟨-9007199254740993, 1,
          [("Size", -9007199254740992), ("benchmark_visualizer_group", 0)]⟩⟩ := by
  refine ⟨BM_VectorPush_overflow 2147483648 (by decide) 0, rfl, ?_⟩
  rw [BM_VectorPush_eq _ (by decide) 1]
  have h0 : toDouble 0 = 0 := rfl
  simp [State.setCounter, State.start, UserCounters.assign, toDouble_sample, h0]
  rfl

/-- C3, amended: for every number `k` of harness iterations, `BM_VectorPush`
with a size argument `N`, `-2^53 ≤ N ≤ 2^31 - 1`, and `BM_VectorAccess` with a
size argument `N`, `0 ≤ N ≤ 2^31 - 1`, return, and the counter `Size` of the
resulting counter map equals `N`. -/
theorem Size_counter_eq (N : Int) (k : Nat)
    (hlo : -9007199254740992 ≤ N) (hN : N ≤ INT_MAX) :
    (∃ r, BM_VectorPush (State.start N k) = .ok r ∧
        r.state.counters.find "Size" = some N) ∧
      (0 ≤ N → ∃ r, BM_VectorAccess (State.start N k) = .ok r ∧
        r.state.counters.find "Size" = some N) := by
  have hc : ∀ g : Int,
      (((State.start N k).setCounter "Size" N).setCounter
        "benchmark_visualizer_group" g).counters.find "Size" = some N := by
    intro g
    simp only [State.setCounter]
    rw [find_assign_other _ _ _ _ (by decide), find_assign_same,
      toDouble_exact N hlo hN]
  refine ⟨⟨_, BM_VectorPush_eq N hN k, hc 0⟩, ?_⟩
  intro h0
  cases k with
  | zero => exact ⟨_, BM_VectorAccess_zero N h0 (INT_MAX_le_max_size N hN), hc 1⟩
  | succ k => exact ⟨_, BM_VectorAccess_eq N h0 hN k, hc 1⟩

/-- C3, witness: the amended statement at size 10000, five iterations. -/
theorem Size_counter_eq_witness :
    (-9007199254740992 : Int) ≤ 10000 ∧ (10000 : Int) ≤ INT_MAX ∧
      (∃ r, BM_VectorPush (State.start 10000 5) = .ok r ∧
        r.state.counters.find "Size" = some 10000) ∧
      ((0 : Int) ≤ 10000 → ∃ r, BM_VectorAccess (State.start 10000 5) = .ok r ∧
        r.state.counters.find "Size" = some 10000) :=
  ⟨by decide, by decide, Size_counter_eq 10000 5 (by decide) (by decide)⟩

/-- C4, counterexample: with size `2^32` and three harness iterations both
benchmark functions end in signed overflow, and `BM_VectorAccess` with size
`-5` ends in a length error: no counter map results whose group counter could
be 0 or 1. -/
theorem group_counter_missing :
    BM_VectorPush (State.start 4294967296 3) = .error .signedOverflow ∧
      BM_VectorAccess (State.start 4294967296 3) = .error .signedOverflow ∧
      BM_VectorAccess (State.start (-5) 3) = .error .lengthError :=
  ⟨BM_VectorPush_overflow 4294967296 (by decide) 2,
    BM_VectorAccess_overflow 4294967296 (by decide) (by decide) 2, rfl⟩

/-- C4, amended: for every number `k` of harness iterations, `BM_VectorPush`
with a size argument `N ≤ 2^31 - 1` returns with group counter 0, and
`BM_VectorAccess` with a size argument `N`, `0 ≤ N ≤ 2^31 - 1`, returns with
group counter 1; for `0 ≤ N ≤ 2^31 - 1` the counter map is
`Size = N, group = 0` after `BM_VectorPush` and `Size = N, group = 1` after
`BM_VectorAccess`. -/
theorem group_counter_eq (N : Int) (k : Nat) (hN : N ≤ INT_MAX) :
    (∃ r, BM_VectorPush (State.start N k) = .ok r ∧
        r.state.counters.find "benchmark_visualizer_group" = some 0 ∧
        (0 ≤ N →
          r.state.counters = [("Size", N), ("benchmark_visualizer_group", 0)])) ∧
      (0 ≤ N → ∃ r, BM_VectorAccess (State.start N k) = .ok r ∧
        r.state.counters.find "benchmark_visualizer_group" = some 1 ∧
        r.state.counters = [("Size", N), ("benchmark_visualizer_group", 1)]) := by
  have hc : ∀ g : Int, toDouble g = g →
      (((State.start N k).setCounter "Size" N).setCounter
        "benchmark_visualizer_group" g).counters.find
          "benchmark_visualizer_group" = some g := by
    intro g hg
    simp only [State.setCounter]
    rw [find_assign_same, hg]
  refine ⟨⟨_, BM_VectorPush_eq N hN k, hc 0 rfl,
    fun h0 => counters_after N h0 hN k 0 rfl⟩, ?_⟩
  intro h0
  cases k with
  | zero =>
    exact ⟨_, BM_VectorAccess_zero N h0 (INT_MAX_le_max_size N hN), hc 1 rfl,
      counters_after N h0 hN 0 1 rfl⟩
  | succ k =>
    exact ⟨_, BM_VectorAccess_eq N h0 hN k, hc 1 rfl, counters_after N h0 hN _ 1 rfl⟩

/-- C4, witness: the amended statement at size 100, seven iterations. -/
theorem group_counter_eq_witness :
    (100 : Int) ≤ INT_MAX ∧
      (∃ r, BM_VectorPush (State.start 100 7) = .ok r ∧
        r.state.counters.find "benchmark_visualizer_group" = some 0 ∧
        ((0 : Int) ≤ 100 →
          r.state.counters = [("Size", 100), ("benchmark_visualizer_group", 0)])) ∧
      ((0 : Int) ≤ 100 → ∃ r, BM_VectorAccess (State.start 100 7) = .ok r ∧
        r.state.counters.find "benchmark_visualizer_group" = some 1 ∧
        r.state.counters = [("Size", 100), ("benchmark_visualizer_group", 1)]) :=
  ⟨by decide, group_counter_eq 100 7 (by decide)⟩

/-- C5: the registry holds exactly two benchmarks, `BM_VectorPush` and
`BM_VectorAccess`, each with the sweep `[10, 100, 1000, 10000]`, so the suite
is exactly these eight (benchmark, argument) pairs. -/
theorem registered_sweeps :
    registered =
        [⟨"BM_VectorPush", [10, 100, 1000, 10000]⟩,
          ⟨"BM_VectorAccess", [10, 100, 1000, 10000]⟩] ∧
      (∀ b ∈ registered, b.args = [10, 100, 1000, 10000]) ∧
      suite =
        [("BM_VectorPush", 10), ("BM_VectorPush", 100), ("BM_VectorPush", 1000),
          ("BM_VectorPush", 10000), ("BM_VectorAccess", 10), ("BM_VectorAccess", 100),
          ("BM_VectorAccess", 1000), ("BM_VectorAccess", 10000)] ∧
      suite.length = 8 := by
  refine ⟨rfl, ?_, rfl, rfl⟩
  intro b hb
  simp only [registered, List.mem_cons, List.mem_singleton, List.not_mem_nil, or_false] at hb
  rcases hb with rfl | rfl <;> rfl

/-- C6, counterexample: for size `3000000000` the run of `BM_VectorAccess`
does meet an error condition: after the write at index `2^31 - 1` the
increment of the `int` counter is undefined, and no write after it is bounded
by the length of the array. -/
theorem BM_VectorAccess_three_billion :
    BM_VectorAccess (State.start 3000000000 1) = .error .signedOverflow :=
  BM_VectorAccess_overflow 3000000000 (by decide) (by decide) 0

/-- C6, amended: for every size `N` with `0 ≤ N ≤ 2^31 - 1` and every number
`k` of harness iterations, `BM_VectorAccess` has no error condition: the run
returns, never taking the out-of-bounds branch of `vec[i] = i`; the same run
with every write logged performs `k * N` writes and leaves the same array of
length `N`, and every index `i` written satisfies `0 ≤ i < ` length of the
array. -/
theorem BM_VectorAccess_in_bounds (N : Int) (k : Nat) (h0 : 0 ≤ N) (hN : N ≤ INT_MAX) :
    ∃ (r : Run) (log : List Int),
      BM_VectorAccess (State.start N k) = .ok r ∧
      BM_VectorAccess (State.start N k) ≠ .error .outOfBounds ∧
      vectorOfSize N = .ok (List.replicate N.toNat 0) ∧
      timedLoop k (accessIterationLogged N) (List.replicate N.toNat 0, []) =
        .ok (r.vec, log) ∧
      r.vec.length = N.toNat ∧
      log.length = k * N.toNat ∧
      ∀ i ∈ log, 0 ≤ i ∧ i.toNat < r.vec.length := by
  have hv := vectorOfSize_eq N h0 (INT_MAX_le_max_size N hN)
  obtain ⟨w, hw, hwl, hlog⟩ :=
    timedLoop_accessLogged N h0 hN k (List.replicate N.toNat 0) [] (by simp)
  have hrun : BM_VectorAccess (State.start N k) =
      .ok ⟨w, ((State.start N k).setCounter "Size" N).setCounter
        "benchmark_visualizer_group" 1⟩ := by
    simp only [BM_VectorAccess, State.start, hv, hw]
  refine ⟨_, _, hrun, ?_, hv, hlog, hwl, ?_, ?_⟩
  · rw [hrun]
    simp
  · simp only [List.nil_append, repeated_length, countUp_length]
  · intro i hi
    rw [List.nil_append] at hi
    have hmem := countUp_mem 0 N.toNat i (mem_repeated _ k i hi)
    have hl : w.length = N.toNat := hwl
    constructor
    · omega
    · show i.toNat < w.length
      omega

/-- C6, witness: the amended statement at size 10, four iterations. -/
theorem BM_VectorAccess_in_bounds_witness :
    (0 : Int) ≤ 10 ∧ (10 : Int) ≤ INT_MAX ∧
      ∃ (r : Run) (log : List Int),
        BM_VectorAccess (State.start 10 4) = .ok r ∧
        BM_VectorAccess (State.start 10 4) ≠ .error .outOfBounds ∧
        vectorOfSize 10 = .ok (List.replicate (10 : Int).toNat 0) ∧
        timedLoop 4 (accessIterationLogged 10) (List.replicate (10 : Int).toNat 0, []) =
          .ok (r.vec, log) ∧
        r.vec.length = (10 : Int).toNat ∧
        log.length = 4 * (10 : Int).toNat ∧
        ∀ i ∈ log, 0 ≤ i ∧ i.toNat < r.vec.length :=
  ⟨by decide, by decide, BM_VectorAccess_in_bounds 10 4 (by decide) (by decide)⟩

/-- C7, counterexample: for size `2^31` and two harness iterations the `int`
counter of `BM_VectorPush` overflows in the first iteration, so the run yields
no array of length `2 * 2^31`. -/
theorem BM_VectorPush_two_pow_31 :
    BM_VectorPush (State.start 2147483648 2) = .error .signedOverflow :=
  BM_VectorPush_overflow 2147483648 (by decide) 1

/-- C7, amended: for every size `N` with `1 ≤ N ≤ 2^31 - 1` and every number
`k ≥ 0` of harness iterations, `BM_VectorPush` returns, its array after the
timed loop has length exactly `k * N`, and the element at index `j` is
`j mod N` for every `j < k * N`. -/
theorem BM_VectorPush_accumulates (N : Int) (k : Nat) (h1 : 1 ≤ N) (hN : N ≤ INT_MAX) :
    ∃ r, BM_VectorPush (State.start N k) = .ok r ∧
      r.vec.length = k * N.toNat ∧
      ∀ j : Nat, j < k * N.toNat → r.vec[j]? = some ((j % N.toNat : Nat) : Int) := by
  refine ⟨_, BM_VectorPush_eq N hN k, ?_, ?_⟩
  · simp only [repeated_length, countUp_length]
  · intro j hj
    have hlt : j % N.toNat < N.toNat := Nat.mod_lt _ (by omega)
    have h := repeated_getElem? (countUp 0 N.toNat) k j (by rw [countUp_length]; exact hj)
    rw [countUp_length] at h
    simp only [h, countUp_getElem? 0 N.toNat _ hlt, Int.zero_add]

/-- C7, witness: the amended statement at size 10, three iterations. -/
theorem BM_VectorPush_accumulates_witness :
    (1 : Int) ≤ 10 ∧ (10 : Int) ≤ INT_MAX ∧
      ∃ r, BM_VectorPush (State.start 10 3) = .ok r ∧
        r.vec.length = 3 * (10 : Int).toNat ∧
        ∀ j : Nat, j < 3 * (10 : Int).toNat →
          r.vec[j]? = some ((j % (10 : Int).toNat : Nat) : Int) :=
  ⟨by decide, by decide, BM_VectorPush_accumulates 10 3 (by decide) (by decide)⟩

/-- C8, counterexample: applied to an array of `2^31` elements, the timed body
of `BM_VectorAccess` ends in signed overflow of its counter instead of
returning an array of that length. -/
theorem accessIteration_two_pow_31 :
    accessIteration 2147483648 (List.replicate 2147483648 0) = .error .signedOverflow :=
  forInt_accessBody_overflow 2147483648 (by decide) _ (List.length_replicate _ _)

/-- C8, amended: for every `N` with `0 ≤ N ≤ 2^31 - 1` there is one array `w`
of length `N` such that, on every array `v` of length `N`, the timed body of
`BM_VectorAccess` returns `w`, applying the body twice returns the same as
applying it once, and `k` iterations return `w` for every `k ≥ 1`. -/
theorem accessIteration_idempotent (N : Int) (h0 : 0 ≤ N) (hN : N ≤ INT_MAX) :
    ∃ w : Vec, w.length = N.toNat ∧
      ∀ v : Vec, v.length = N.toNat →
        accessIteration N v = .ok w ∧
        accessIteration N w = .ok w ∧
        (accessIteration N v).bind (accessIteration N) = accessIteration N v ∧
        ∀ k : Nat, 1 ≤ k → timedLoop k (accessIteration N) v = .ok w := by
  have hw : (countUp 0 N.toNat).length = N.toNat := countUp_length _ _
  refine ⟨countUp 0 N.toNat, hw, ?_⟩
  intro v hv
  have e1 := accessIteration_eq N h0 hN v hv
  have e2 := accessIteration_eq N h0 hN _ hw
  refine ⟨e1, e2, ?_, ?_⟩
  · rw [e1]
    exact e2
  · intro k hk
    obtain ⟨k, rfl⟩ : ∃ m, k = m + 1 := ⟨k - 1, by omega⟩
    exact timedLoop_access N h0 hN k v hv

/-- C8, witness: the amended statement at size 3. -/
theorem accessIteration_idempotent_witness :
    (0 : Int) ≤ 3 ∧ (3 : Int) ≤ INT_MAX ∧
      ∃ w : Vec, w.length = (3 : Int).toNat ∧
        ∀ v : Vec, v.length = (3 : Int).toNat →
          accessIteration 3 v = .ok w ∧
          accessIteration 3 w = .ok w ∧
          (accessIteration 3 v).bind (accessIteration 3) = accessIteration 3 v ∧
          ∀ k : Nat, 1 ≤ k → timedLoop k (accessIteration 3) v = .ok w :=
  ⟨by decide, by decide, accessIteration_idempotent 3 (by decide) (by decide)⟩

/-- C9: for every `N ≤ 2^31 - 1` the inner loop of either benchmark
(`pushIteration`, and `accessIteration` on an array of length `N`) returns,
so its `int` counter does not overflow; the same loop with the counter value
of every body execution logged returns the same array and the log
`0, 1, ..., N-1` in this order: `N` executions for `N ≥ 0`, each with a
counter value of at most `2^31 - 1`, and none for `N ≤ 0`.  After one harness
iteration the array of `BM_VectorPush`, and for `N ≥ 0` that of
`BM_VectorAccess`, is this log.  Dropping the log of a logged loop gives the
benchmark's loop on every input. -/
theorem forInt_counter_values (N : Int) (v : Vec) (hN : N ≤ INT_MAX) :
    ∃ log : List Int,
      log = (List.range N.toNat).map (fun (j : Nat) => (j : Int)) ∧
      (∃ w, pushIteration N v = .ok w ∧ w = v ++ log ∧
        pushIterationLogged N (v, []) = .ok (w, log)) ∧
      ((0 < N → v.length = N.toNat) →
        ∃ w, accessIteration N v = .ok w ∧ (0 < N → w = log) ∧ (N ≤ 0 → w = v) ∧
          accessIterationLogged N (v, []) = .ok (w, log)) ∧
      (∃ r, BM_VectorPush (State.start N 1) = .ok r ∧ r.vec = log) ∧
      (0 ≤ N → ∃ r, BM_VectorAccess (State.start N 1) = .ok r ∧ r.vec = log) ∧
      (∀ p : Vec × List Int,
        Except.map Prod.fst (pushIterationLogged N p) = pushIteration N p.1 ∧
        Except.map Prod.fst (accessIterationLogged N p) = accessIteration N p.1) ∧
      log.length = N.toNat ∧
      (∀ x ∈ log, 0 ≤ x ∧ x < N ∧ x ≤ INT_MAX) ∧
      (N ≤ 0 → log = []) := by
  have hlog : countUp 0 N.toNat = (List.range N.toNat).map (fun (j : Nat) => (j : Int)) := by
    rw [countUp_eq_map]
    simp
  have hsub : (N - 0).toNat = N.toNat := by simp
  have hpush : pushIteration N v = .ok (v ++ countUp 0 N.toNat) :=
    forInt_pushBody N hN N.toNat 0 v hsub
  refine ⟨countUp 0 N.toNat, hlog, ?_, ?_, ?_, ?_, ?_, countUp_length _ _, ?_, ?_⟩
  · refine ⟨_, hpush, rfl, ?_⟩
    have h := pushIterationLogged_eq N hN v []
    rw [List.nil_append] at h
    exact h
  · intro hv
    by_cases hpos : 0 < N
    · have h := accessIterationLogged_eq N (le_of_lt hpos) hN v [] (hv hpos)
      rw [List.nil_append] at h
      exact ⟨_, accessIteration_eq N (le_of_lt hpos) hN v (hv hpos), fun _ => rfl,
        fun hle => absurd hpos (not_lt.mpr hle), h⟩
    · have hd : accessIteration N v = .ok v := forInt_done N accessBody 0 v (by omega)
      have h := forInt_logged N accessBody _ 0 v _ [] rfl hd
      have hz : (N - 0).toNat = 0 := by omega
      have hz2 : N.toNat = 0 := by omega
      rw [hz] at h
      refine ⟨v, hd, fun hp => absurd hp hpos, fun _ => rfl, ?_⟩
      rw [hz2]
      exact h
  · refine ⟨_, BM_VectorPush_eq N hN 1, ?_⟩
    simp [repeated]
  · intro h0
    exact ⟨_, BM_VectorAccess_eq N h0 hN 0, rfl⟩
  · intro p
    exact ⟨forInt_logged_fst N pushBody _ 0 p.1 p.2 rfl,
      forInt_logged_fst N accessBody _ 0 p.1 p.2 rfl⟩
  · intro x hx
    have := countUp_mem 0 N.toNat x hx
    omega
  · intro hle
    have : N.toNat = 0 := by omega
    rw [this]
    rfl

/-- C9, witness: the statement at size 5, on an array of five zeros. -/
theorem forInt_counter_values_witness :
    (5 : Int) ≤ INT_MAX ∧
      ∃ log : List Int,
        log = (List.range (5 : Int).toNat).map (fun (j : Nat) => (j : Int)) ∧
        (∃ w, pushIteration 5 [0, 0, 0, 0, 0] = .ok w ∧ w = [0, 0, 0, 0, 0] ++ log ∧
          pushIterationLogged 5 ([0, 0, 0, 0, 0], []) = .ok (w, log)) ∧
        ((0 < (5 : Int) → [(0 : Int), 0, 0, 0, 0].length = (5 : Int).toNat) →
          ∃ w, accessIteration 5 [0, 0, 0, 0, 0] = .ok w ∧ (0 < (5 : Int) → w = log) ∧
            ((5 : Int) ≤ 0 → w = [0, 0, 0, 0, 0]) ∧
            accessIterationLogged 5 ([0, 0, 0, 0, 0], []) = .ok (w, log)) ∧
        (∃ r, BM_VectorPush (State.start 5 1) = .ok r ∧ r.vec = log) ∧
        ((0 : Int) ≤ 5 → ∃ r, BM_VectorAccess (State.start 5 1) = .ok r ∧ r.vec = log) ∧
        (∀ p : Vec × List Int,
          Except.map Prod.fst (pushIterationLogged 5 p) = pushIteration 5 p.1 ∧
          Except.map Prod.fst (accessIterationLogged 5 p) = accessIteration 5 p.1) ∧
        log.length = (5 : Int).toNat ∧
        (∀ x ∈ log, 0 ≤ x ∧ x < 5 ∧ x ≤ INT_MAX) ∧
        ((5 : Int) ≤ 0 → log = []) :=
  ⟨by decide, forInt_counter_values 5 [0, 0, 0, 0, 0] (by decide)⟩

end BenchmarkVisualizer
